import Mathlib

/-!
# Verification of the mini_blockchain core

Shallow embedding of `src/block.rs` and `src/network.rs`.

Modelling conventions:
* Rust machine integers (`u32`, `u64`, `usize`) are `Nat`; arithmetic that can
  overflow in Rust is taken with the release-mode wrapping semantics, written
  with an explicit `% 2 ^ 32` where it occurs (`prev.index + 1`,
  `chain.len() as u32`).
* Wall-clock reads (`SystemTime::now`) become explicit `timestamp` parameters.
* The proof-of-work loop of `Block::new` is an unbounded search over a `u32`
  nonce; it is embedded as a fuel-bounded search over the `2 ^ 32` possible
  nonce values returning `Option` (`none` models the run in which no `u32`
  nonce satisfies the difficulty predicate, where the Rust loop would
  overflow/panic instead of returning).
* `f64` is embedded as the inductive `F64` below, with IEEE-754 comparison
  semantics on a `ℚ` carrier extended by the special values.
* SHA-256 is implemented from the FIPS 180-4 algorithm over byte lists, with
  32-bit words as `Nat` mod `2 ^ 32`, so that every definition is executable
  and kernel-reducible.
-/

/-! ## SHA-256 (kernel-reducible) -/

def m32 : Nat := 4294967296

def rotr (x n : Nat) : Nat := ((x >>> n) ||| (x <<< (32 - n))) % m32

def bnot32 (x : Nat) : Nat := x ^^^ 4294967295

def shaK : Array Nat := #[
  1116352408, 1899447441, 3049323471, 3921009573, 961987163,
  1508970993, 2453635748, 2870763221, 3624381080, 310598401,
  607225278, 1426881987, 1925078388, 2162078206, 2614888103,
  3248222580, 3835390401, 4022224774, 264347078, 604807628,
  770255983, 1249150122, 1555081692, 1996064986, 2554220882,
  2821834349, 2952996808, 3210313671, 3336571891, 3584528711,
  113926993, 338241895, 666307205, 773529912, 1294757372,
  1396182291, 1695183700, 1986661051, 2177026350, 2456956037,
  2730485921, 2820302411, 3259730800, 3345764771, 3516065817,
  3600352804, 4094571909, 275423344, 430227734, 506948616,
  659060556, 883997877, 958139571, 1322822218, 1537002063,
  1747873779, 1955562222, 2024104815, 2227730452, 2361852424,
  2428436474, 2756734187, 3204031479, 3329325298]

structure Regs where
  a : Nat
  b : Nat
  c : Nat
  d : Nat
  e : Nat
  f : Nat
  g : Nat
  hh : Nat
deriving DecidableEq

def shaRound (k w : Nat) (s : Regs) : Regs :=
  let s1 := rotr s.e 6 ^^^ rotr s.e 11 ^^^ rotr s.e 25
  let ch := (s.e &&& s.f) ^^^ (bnot32 s.e &&& s.g)
  let t1 := (s.hh + s1 + ch + k + w) % m32
  let s0 := rotr s.a 2 ^^^ rotr s.a 13 ^^^ rotr s.a 22
  let maj := (s.a &&& s.b) ^^^ (s.a &&& s.c) ^^^ (s.b &&& s.c)
  let t2 := (s0 + maj) % m32
  ⟨(t1 + t2) % m32, s.a, s.b, s.c, (s.d + t1) % m32, s.e, s.f, s.g⟩

def wext (w : Array Nat) : Nat :=
  let i := w.size
  let x15 := w.getD (i - 15) 0
  let x2 := w.getD (i - 2) 0
  let sig0 := rotr x15 7 ^^^ rotr x15 18 ^^^ (x15 >>> 3)
  let sig1 := rotr x2 17 ^^^ rotr x2 19 ^^^ (x2 >>> 10)
  (w.getD (i - 16) 0 + sig0 + w.getD (i - 7) 0 + sig1) % m32

def buildW : Array Nat → Nat → Array Nat
  | w, 0 => w
  | w, n+1 => buildW (w.push (wext w)) n

def shaCompress (w0 : Array Nat) (s : Regs) : Regs :=
  let w := buildW w0 48
  let t := (List.range 64).foldl
    (fun t i => shaRound (shaK.getD i 0) (w.getD i 0) t) s
  ⟨(s.a + t.a) % m32, (s.b + t.b) % m32, (s.c + t.c) % m32, (s.d + t.d) % m32,
   (s.e + t.e) % m32, (s.f + t.f) % m32, (s.g + t.g) % m32, (s.hh + t.hh) % m32⟩

def be64 (n : Nat) : List Nat :=
  [(n >>> 56) &&& 255, (n >>> 48) &&& 255, (n >>> 40) &&& 255, (n >>> 32) &&& 255,
   (n >>> 24) &&& 255, (n >>> 16) &&& 255, (n >>> 8) &&& 255, n &&& 255]

def padBytes (msg : List Nat) : List Nat :=
  let len := msg.length
  msg ++ [128] ++ List.replicate ((119 - len % 64) % 64) 0 ++ be64 (len * 8)

def toWords : List Nat → List Nat
  | b0 :: b1 :: b2 :: b3 :: rest =>
    (b0 <<< 24 ||| b1 <<< 16 ||| b2 <<< 8 ||| b3) :: toWords rest
  | _ => []

def chunks16 : List Nat → List (Array Nat)
  | w0 :: w1 :: w2 :: w3 :: w4 :: w5 :: w6 :: w7 ::
    w8 :: w9 :: w10 :: w11 :: w12 :: w13 :: w14 :: w15 :: rest =>
    #[w0, w1, w2, w3, w4, w5, w6, w7, w8, w9, w10, w11, w12, w13, w14, w15] :: chunks16 rest
  | _ => []

def shaInit : Regs :=
  ⟨1779033703, 3144134277, 1013904242, 2773480762, 1359893119, 2600822924, 528734635, 1541459225⟩

def be32 (n : Nat) : List Nat :=
  [(n >>> 24) &&& 255, (n >>> 16) &&& 255, (n >>> 8) &&& 255, n &&& 255]

def sha256Bytes (msg : List Nat) : List Nat :=
  let s := (chunks16 (toWords (padBytes msg))).foldl (fun t c => shaCompress c t) shaInit
  be32 s.a ++ be32 s.b ++ be32 s.c ++ be32 s.d ++ be32 s.e ++ be32 s.f ++ be32 s.g ++ be32 s.hh

def hexDigit (n : Nat) : Char :=
  Char.ofNat (if n < 10 then 48 + n else 87 + n)

def bytesToHex (bs : List Nat) : String :=
  String.mk ((bs.map fun b => [hexDigit ((b >>> 4) &&& 15), hexDigit (b &&& 15)]).flatten)

def utf8Char (c : Char) : List Nat :=
  let n := c.toNat
  if n < 128 then [n]
  else if n < 2048 then [192 ||| (n >>> 6), 128 ||| (n &&& 63)]
  else if n < 65536 then [224 ||| (n >>> 12), 128 ||| ((n >>> 6) &&& 63), 128 ||| (n &&& 63)]
  else [240 ||| (n >>> 18), 128 ||| ((n >>> 12) &&& 63), 128 ||| ((n >>> 6) &&& 63), 128 ||| (n &&& 63)]

def strBytes (s : String) : List Nat :=
  (s.data.map utf8Char).flatten

/-- `hex::encode(Sha256::digest(s))` — lowercase hex SHA-256 of the UTF-8 bytes of `s`. -/
def sha256Hex (s : String) : String :=
  bytesToHex (sha256Bytes (strBytes s))

/-! ## The `f64` model

Rust `f64` values, as far as this codebase observes them: the code compares
amounts with `<=` (IEEE-754 partial order, in which NaN compares false with
everything) and renders them with `Display`.  Finite values are carried on a
`ℚ` superset of the binary64 finite values; `-0.0` is kept as a separate
constructor because `Display` distinguishes it, while comparisons identify it
with `0`. -/

inductive F64 where
  | nan : F64
  | inf : F64
  | neginf : F64
  | negzero : F64
  | fin : ℚ → F64
deriving DecidableEq

inductive ExtQ where
  | ninf : ExtQ
  | fin : ℚ → ExtQ
  | pinf : ExtQ
deriving DecidableEq

def ExtQ.le : ExtQ → ExtQ → Bool
  | .ninf, _ => true
  | _, .pinf => true
  | .fin a, .fin b => decide (a ≤ b)
  | .pinf, _ => false
  | .fin _, .ninf => false

def ExtQ.lt : ExtQ → ExtQ → Bool
  | _, .ninf => false
  | .ninf, _ => true
  | .fin a, .fin b => decide (a < b)
  | .fin _, .pinf => true
  | .pinf, _ => false

/-- Numeric value of an `F64`, `none` for NaN. -/
def F64.val? : F64 → Option ExtQ
  | .nan => none
  | .inf => some .pinf
  | .neginf => some .ninf
  | .negzero => some (.fin 0)
  | .fin q => some (.fin q)

/-- IEEE-754 `<=`: false whenever either side is NaN. -/
def F64.le (x y : F64) : Bool :=
  match x.val?, y.val? with
  | some a, some b => ExtQ.le a b
  | _, _ => false

/-- IEEE-754 `<`: false whenever either side is NaN. -/
def F64.lt (x y : F64) : Bool :=
  match x.val?, y.val? with
  | some a, some b => ExtQ.lt a b
  | _, _ => false

/-- The `f64` literal `0.0`. -/
def f64zero : F64 := F64.fin 0

/-- Rust `Display` for `f64` (`format!("{}", x)`).  Exact on the special
values and on integral finite values — the only values this development ever
renders; the non-integral branch abstracts Rust's shortest-round-trip decimal
output. -/
def F64.fmt : F64 → String
  | .nan => "NaN"
  | .inf => "inf"
  | .neginf => "-inf"
  | .negzero => "-0"
  | .fin q => if q.den = 1 then toString q.num else toString q

/-- Exact rational reading of an amount; the special values carry no finite
quantity and read as `0`. -/
def F64.toRat : F64 → ℚ
  | .fin q => q
  | _ => 0

/-! ## Transaction (`src/block.rs`) -/

structure Transaction where
  «from» : String
  «to» : String
  amount : F64
  timestamp : Nat
  signature : String
  public_key : String
deriving DecidableEq

/-- `Transaction::new`; the wall-clock read becomes the `timestamp` argument. -/
def Transaction.new («from» «to» : String) (amount : F64) (signature public_key : String)
    (timestamp : Nat) : Transaction :=
  { «from» := «from», «to» := «to», amount := amount, timestamp := timestamp,
    signature := signature, public_key := public_key }

/-- `Transaction::is_valid`. -/
def Transaction.is_valid (t : Transaction) : Bool :=
  if t.amount.le f64zero then false
  else if t.«from» == "" || t.«to» == "" then false
  else if t.«from» == t.«to» then false
  else if t.signature == "" || t.public_key == "" then false
  else true

/-! ## Block (`src/block.rs`) -/

structure Block where
  index : Nat
  timestamp : Nat
  transactions : List Transaction
  prev_hash : String
  hash : String
  nonce : Nat
deriving DecidableEq

/-- The serialized-transactions string of `Block::compute_hash`:
each transaction rendered `from->to:amount`, joined with `"|"`. -/
def txJoin (transactions : List Transaction) : String :=
  String.intercalate "|" (transactions.map fun tx =>
    tx.«from» ++ "->" ++ tx.«to» ++ ":" ++ tx.amount.fmt)

/-- `Block::compute_hash`. -/
def Block.compute_hash (index timestamp : Nat) (transactions : List Transaction)
    (prev_hash : String) (nonce : Nat) : String :=
  sha256Hex (toString index ++ "|" ++ toString timestamp ++ "|" ++ txJoin transactions
    ++ "|" ++ prev_hash ++ "|" ++ toString nonce)

/-- `"0".repeat(d)`. -/
def zeroRun (d : Nat) : String := String.mk (List.replicate d '0')

/-- Rust `str::starts_with`. -/
def strStartsWith (s p : String) : Bool := p.data.isPrefixOf s.data

/-- The proof-of-work loop of `Block::new`: starting from `nonce`, find the
first nonce whose hash begins with two `'0'` characters, together with that
hash.  `fuel` bounds the search by the number of remaining `u32` nonce
values. -/
def findNonce (index timestamp : Nat) (transactions : List Transaction) (prev_hash : String) :
    Nat → Nat → Option (Nat × String)
  | 0, _ => none
  | fuel+1, nonce =>
    let h := Block.compute_hash index timestamp transactions prev_hash nonce
    if strStartsWith h (zeroRun 2) then some (nonce, h)
    else findNonce index timestamp transactions prev_hash fuel (nonce + 1)

/-- `Block::new`; the wall-clock read becomes the `timestamp` argument, and
the unbounded mining loop is the fuel-bounded nonce search above. -/
def Block.new (index : Nat) (transactions : List Transaction) (prev_hash : String)
    (timestamp : Nat) : Option Block :=
  (findNonce index timestamp transactions prev_hash (2 ^ 32) 0).map fun p =>
    { index := index, timestamp := timestamp, transactions := transactions,
      prev_hash := prev_hash, hash := p.2, nonce := p.1 }

/-- The placeholder transaction of `Block::genesis`. -/
def genesisTx (timestamp : Nat) : Transaction :=
  Transaction.new "GENESIS" "GENESIS" (F64.fin 0) "genesis_signature" "genesis_key" timestamp

/-- `Block::genesis` (both wall-clock reads are given the same instant). -/
def Block.genesis (timestamp : Nat) : Option Block :=
  Block.new 0 [genesisTx timestamp] (zeroRun 64) timestamp

/-- `Block::is_valid(self, prev)`. -/
def Block.is_valid (self prev : Block) : Bool :=
  if self.index != (prev.index + 1) % 2 ^ 32 then false
  else if self.prev_hash != prev.hash then false
  else if self.transactions.any (fun tx => !tx.is_valid) then false
  else if self.hash != Block.compute_hash self.index self.timestamp self.transactions
      self.prev_hash self.nonce then false
  else if !strStartsWith self.hash (zeroRun 2) then false
  else true

/-! ## MemPool (`src/block.rs`) -/

structure MemPool where
  transactions : List Transaction
deriving DecidableEq

def MemPool.new : MemPool := ⟨[]⟩

/-- `MemPool::add_transaction`: returns the updated pool and the boolean result. -/
def MemPool.add_transaction (p : MemPool) (tx : Transaction) : MemPool × Bool :=
  if tx.is_valid then (⟨p.transactions ++ [tx]⟩, true) else (p, false)

/-- `Vec::pop`: removes and returns the last element. -/
def popLastTx : List Transaction → Option (Transaction × List Transaction)
  | [] => none
  | [tx] => some (tx, [])
  | tx :: rest =>
    match popLastTx rest with
    | none => none
    | some (y, r) => some (y, tx :: r)

/-- `MemPool::get_transactions(count)`: pops up to `count` entries from the
end of the pool, in pop order. -/
def MemPool.get_transactions (p : MemPool) : Nat → List Transaction × MemPool
  | 0 => ([], p)
  | count+1 =>
    match popLastTx p.transactions with
    | none => ([], p)
    | some (tx, rest) =>
      let r := MemPool.get_transactions ⟨rest⟩ count
      (tx :: r.1, r.2)

/-- `MemPool::clear`. -/
def MemPool.clear (_ : MemPool) : MemPool := ⟨[]⟩

/-- `MemPool::size`. -/
def MemPool.size (p : MemPool) : Nat := p.transactions.length

/-! ## Blockchain (`src/block.rs`) -/

structure Blockchain where
  chain : List Block
  difficulty : Nat
  mempool : MemPool
deriving DecidableEq

/-- `Blockchain::new`: the genesis block is mined at construction, so the
result is `none` exactly when that mining search fails. -/
def Blockchain.new (timestamp : Nat) : Option Blockchain :=
  (Block.genesis timestamp).map fun g => { chain := [g], difficulty := 2, mempool := MemPool.new }

/-- `Blockchain::add_transaction` delegates to the mempool. -/
def Blockchain.add_transaction (bc : Blockchain) (tx : Transaction) : Blockchain × Bool :=
  let r := bc.mempool.add_transaction tx
  ({ bc with mempool := r.1 }, r.2)

/-- Placeholder used as the default of the otherwise-panicking indexings
`chain[0]` / `chain[len - 1]`; unreachable under the chain invariant, since
every `Blockchain` is created with the genesis block already in the chain. -/
def junkBlock : Block := ⟨0, 0, [], "", "", 0⟩

/-- `chain[chain.len() - 1]` (the source panics on an empty chain). -/
def lastBlock (chain : List Block) : Block := chain.getLastD junkBlock

/-- `chain[0]` (the source panics on an empty chain). -/
def headBlock (chain : List Block) : Block := chain.headD junkBlock

/-- `Blockchain::mine_block`; returns the updated state together with the
boolean result, and `none` exactly when the embedded mining search fails. -/
def Blockchain.mine_block (bc : Blockchain) (timestamp : Nat) : Option (Blockchain × Bool) :=
  let new_index := bc.chain.length % 2 ^ 32
  let prev_block := lastBlock bc.chain
  let prev_hash := prev_block.hash
  let r := bc.mempool.get_transactions 10
  let bc1 : Blockchain := { bc with mempool := r.2 }
  if r.1.isEmpty then some (bc1, false)
  else
    match Block.new new_index r.1 prev_hash timestamp with
    | none => none
    | some new_block =>
      if new_block.is_valid prev_block then
        some ({ bc1 with chain := bc1.chain ++ [new_block] }, true)
      else some (bc1, false)

/-- The loop body of `Blockchain::is_chain_valid`, threading the previous block. -/
def chainLinksOk : Block → List Block → Bool
  | _, [] => true
  | prev, b :: rest => b.is_valid prev && chainLinksOk b rest

/-- `Blockchain::is_chain_valid`: checks `chain[i].is_valid(chain[i-1])` for
every `i ≥ 1`. -/
def Blockchain.is_chain_valid (bc : Blockchain) : Bool :=
  match bc.chain with
  | [] => true
  | g :: rest => chainLinksOk g rest

/-- Modelled from the spec: `Blockchain::get_balance` is called from
`src/main.rs` but its definition is not among the sources under `src/`.
Per §4.3 of the spec it scans every block and every transaction in chain
order, subtracts the amount when `from == address`, adds it when
`to == address`, and returns the running total.  Amounts are read exactly
(`F64.toRat`), matching the spec's `amount > 0` decimal model. -/
def Blockchain.get_balance (bc : Blockchain) (address : String) : ℚ :=
  bc.chain.foldl (fun acc b =>
    b.transactions.foldl (fun acc2 tx =>
      let acc3 := if tx.«from» == address then acc2 - tx.amount.toRat else acc2
      if tx.«to» == address then acc3 + tx.amount.toRat else acc3) acc) 0

/-! ## Node message handlers (`src/network.rs`)

The `Node` wraps its `Blockchain` in `Arc<Mutex<_>>`; each handler runs under
the lock, so it is embedded as a pure state transformer on `Blockchain`.
Incoming wire messages are modelled after JSON decoding, i.e. as the decoded
`Block` values. -/

/-- The `NEW_BLOCK` branch of `handle_client`. -/
def Node.handle_new_block (bc : Blockchain) (b : Block) : Blockchain :=
  if bc.chain.length > 0 then
    if b.is_valid (lastBlock bc.chain) then { bc with chain := bc.chain ++ [b] } else bc
  else bc

/-- The per-element step of the sync-merge loop for `idx ≥ 1`. -/
def syncStep (acc : Blockchain) (b : Block) : Blockchain :=
  if b.is_valid (lastBlock acc.chain) then { acc with chain := acc.chain ++ [b] } else acc

/-- `Node::handle_sync_response` on a decoded incoming chain: element `0` is
only compared with the local `chain[0]` hash (mismatch aborts the whole
merge); every later element is appended iff it validates against the local
tail current at that moment. -/
def Node.handle_sync_response (bc : Blockchain) (incoming : List Block) : Blockchain :=
  match incoming with
  | [] => bc
  | g :: rest =>
    if (headBlock bc.chain).hash != g.hash then bc
    else rest.foldl syncStep bc

/-! ## Reachable states (claim C1)

States produced by `Blockchain::new` followed by any sequence of
`add_transaction`, `mine_block`, and sync/`NEW_BLOCK` merges. -/

inductive Reachable : Blockchain → Prop where
  | init (ts : Nat) (bc : Blockchain) : Blockchain.new ts = some bc → Reachable bc
  | addTx (bc : Blockchain) (tx : Transaction) : Reachable bc →
      Reachable (bc.add_transaction tx).1
  | mined (bc : Blockchain) (ts : Nat) (r : Blockchain × Bool) : Reachable bc →
      bc.mine_block ts = some r → Reachable r.1
  | synced (bc : Blockchain) (incoming : List Block) : Reachable bc →
      Reachable (Node.handle_sync_response bc incoming)
  | newBlock (bc : Blockchain) (b : Block) : Reachable bc →
      Reachable (Node.handle_new_block bc b)

/-- The adjacent-link relation of the chain invariant. -/
def linkOk (prev next : Block) : Prop := next.is_valid prev = true

/-! ## Spec-side definitions for refinement claims -/

/-- Spec-side rendering of `compute_hash` (C3): the lowercase-hex SHA-256 of
index, timestamp, the transaction serialization, prev_hash and nonce joined
by `"|"`, where each transaction is rendered `from->to:amount` and the
transactions are joined with `"|"` in the sequence's own order. -/
def computeHashSpec (index timestamp : Nat) (transactions : List Transaction)
    (prev_hash : String) (nonce : Nat) : String :=
  sha256Hex (String.intercalate "|"
    [toString index, toString timestamp,
     String.intercalate "|" (transactions.map fun tx =>
       tx.«from» ++ "->" ++ tx.«to» ++ ":" ++ tx.amount.fmt),
     prev_hash, toString nonce])

/-- Spec-side chain merge (C6): each incoming block, in order, is appended
exactly when it validates against the local chain tail current at the moment
it is processed; otherwise it is dropped. -/
def mergeSpec : List Block → List Block → List Block
  | ch, [] => ch
  | ch, b :: rest =>
    if b.is_valid (lastBlock ch) then mergeSpec (ch ++ [b]) rest else mergeSpec ch rest

/-! ## Concrete states used by witnesses and counterexamples

The timestamps below are chosen so that each proof-of-work search succeeds
already at nonce 0, keeping kernel evaluation of the witnesses cheap; the hash
literals are the corresponding SHA-256 values. -/

def genesisHash88 : String :=
  "00eb21dfdcf1941fbe9b8ac4764e4d1cc52b58a6507522b9272dfa40d8de0cdb"

def genesisBlock88 : Block := ⟨0, 88, [genesisTx 88], zeroRun 64, genesisHash88, 0⟩

def bcInit88 : Blockchain := ⟨[genesisBlock88], 2, ⟨[]⟩⟩

def c2prev : Block := ⟨4294967295, 0, [], "", "p", 0⟩

def c2self : Block :=
  ⟨0, 36, [], "p", "001a7082b8058d0456b12ac2f7bcc1b59bdae11d6453cb4d073366d2f8bf18ea", 0⟩

def c3block : Block :=
  ⟨0, 661, [], "", "00f2e6986b852b9ad1c8a6b1fe2a71aa1eb6f18710229b6e994862f7ba321c21", 0⟩

def c4nan : Transaction := Transaction.new "a" "b" F64.nan "s" "k" 0

def c4ok : Transaction := Transaction.new "a" "b" (F64.fin 5) "s" "k" 0

def c5bad : Transaction := Transaction.new "" "x" (F64.fin 1) "s" "k" 0

def c5prev : Block := ⟨0, 0, [], "", "h", 0⟩

def c5bc : Blockchain := ⟨[c5prev], 2, ⟨[c5bad]⟩⟩

def c5w : Blockchain := ⟨[junkBlock], 5, ⟨[]⟩⟩

def scnTx1 : Transaction := Transaction.new "A" "B" (F64.fin 10) "s1" "k1" 0

def scnTx2 : Transaction := Transaction.new "B" "C" (F64.fin 5) "s2" "k2" 0

def scnTx3 : Transaction := Transaction.new "C" "A" (F64.fin 3) "s3" "k3" 0

def scnBlock : Block :=
  ⟨1, 68, [scnTx3, scnTx2, scnTx1], genesisHash88,
   "0020484908fb5f9cb8aca1411dab2437c93ba93a78f9e169427074ac497db8d1", 0⟩

def scnResult : Blockchain := ⟨[genesisBlock88, scnBlock], 2, ⟨[]⟩⟩

def c8tx : Transaction := Transaction.new "A" "B" (F64.fin 1) "s" "k" 0

def c8prev : Block := ⟨0, 1, [], "", "h8", 0⟩

def c8bc : Blockchain := ⟨[c8prev], 2, ⟨[c8tx]⟩⟩

def c8block : Block :=
  ⟨1, 291, [c8tx], "h8", "00e5a0c49de74f84ae80919dac0fdb9e8b487819cd768783e68d4ae49e242580", 0⟩

def c8res : Blockchain := ⟨[c8prev, c8block], 2, ⟨[]⟩⟩

def c8w : Blockchain := ⟨[junkBlock], 7, ⟨[]⟩⟩

def c9txA : Transaction := Transaction.new "A" "B" (F64.fin 5) "sa" "ka" 0

def c9txB : Transaction := Transaction.new "B" "A" (F64.fin 2) "sb" "kb" 0

def c9bc : Blockchain := ⟨[⟨0, 0, [c9txA, c9txB], "", "", 0⟩], 2, ⟨[]⟩⟩

def c9S : Finset String := {"A", "B"}

def c10blk : Block := ⟨1, 0, [genesisTx 0], "", "", 0⟩

/-! ## Basic lemmas about the embedded operations -/

theorem not_any_not_eq_all (p : Transaction → Bool) (l : List Transaction) :
    (!(l.any fun x => !p x)) = l.all p := by
  induction l with
  | nil => rfl
  | cons a t ih => simp [List.any_cons, List.all_cons, ← ih]

theorem if_bool_false (c r : Bool) : (if c = true then false else r) = (!c && r) := by
  cases c <;> simp

theorem Blockchain.new_unfold {ts : Nat} {bc : Blockchain}
    (h : Blockchain.new ts = some bc) :
    ∃ g, Block.genesis ts = some g ∧ bc = ⟨[g], 2, ⟨[]⟩⟩ := by
  unfold Blockchain.new at h
  rw [Option.map_eq_some'] at h
  obtain ⟨g, hg, hb⟩ := h
  exact ⟨g, hg, hb.symm⟩

theorem findNonce_elim {i ts : Nat} {txs : List Transaction} {ph : String} :
    ∀ (fuel start n : Nat) (hs : String),
    findNonce i ts txs ph fuel start = some (n, hs) →
    hs = Block.compute_hash i ts txs ph n ∧
    strStartsWith hs (zeroRun 2) = true ∧
    start ≤ n ∧
    ∀ m, start ≤ m → m < n →
      strStartsWith (Block.compute_hash i ts txs ph m) (zeroRun 2) = false := by
  intro fuel
  induction fuel with
  | zero => intro start n hs hf; exact absurd hf (by simp [findNonce])
  | succ f ih =>
    intro start n hs hf
    simp only [findNonce] at hf
    split at hf
    · rename_i hc
      simp only [Option.some.injEq, Prod.mk.injEq] at hf
      obtain ⟨rfl, rfl⟩ := hf
      exact ⟨rfl, hc, Nat.le_refl _, fun m h1 h2 => absurd (Nat.lt_of_le_of_lt h1 h2) (by omega)⟩
    · rename_i hc
      obtain ⟨e1, e2, e3, e4⟩ := ih (start + 1) n hs hf
      refine ⟨e1, e2, by omega, ?_⟩
      intro m hm1 hm2
      rcases Nat.eq_or_lt_of_le hm1 with rfl | hlt
      · exact Bool.eq_false_iff.mpr hc
      · exact e4 m (by omega) hm2

theorem Block.new_props {i : Nat} {txs : List Transaction} {ph : String} {ts : Nat} {b : Block}
    (h : Block.new i txs ph ts = some b) :
    b.index = i ∧ b.timestamp = ts ∧ b.transactions = txs ∧ b.prev_hash = ph ∧
    b.hash = Block.compute_hash i ts txs ph b.nonce ∧
    strStartsWith b.hash (zeroRun 2) = true ∧
    ∀ m, m < b.nonce →
      strStartsWith (Block.compute_hash i ts txs ph m) (zeroRun 2) = false := by
  unfold Block.new at h
  rw [Option.map_eq_some'] at h
  obtain ⟨⟨n, hs⟩, hfind, hb⟩ := h
  obtain ⟨e1, e2, _, e4⟩ := findNonce_elim _ 0 n hs hfind
  subst hb
  exact ⟨rfl, rfl, rfl, rfl, e1, e1 ▸ e2, fun m hm => e4 m (Nat.zero_le m) hm⟩

theorem Block.is_valid_eq (self prev : Block) :
    self.is_valid prev =
      ((self.index == (prev.index + 1) % 2 ^ 32) &&
       (self.prev_hash == prev.hash) &&
       self.transactions.all (fun tx => tx.is_valid) &&
       (self.hash == Block.compute_hash self.index self.timestamp self.transactions
          self.prev_hash self.nonce) &&
       strStartsWith self.hash (zeroRun 2)) := by
  unfold Block.is_valid
  rw [if_bool_false, if_bool_false, if_bool_false, if_bool_false, if_bool_false]
  simp only [bne, Bool.not_not, not_any_not_eq_all, Bool.and_true]
  cases h1 : (self.index == (prev.index + 1) % 2 ^ 32) <;>
    cases h2 : (self.prev_hash == prev.hash) <;>
    cases h3 : self.transactions.all (fun tx => tx.is_valid) <;>
    cases h4 : (self.hash == Block.compute_hash self.index self.timestamp self.transactions
      self.prev_hash self.nonce) <;> simp

theorem Block.is_valid_iff (self prev : Block) :
    self.is_valid prev = true ↔
      self.index = (prev.index + 1) % 2 ^ 32 ∧ self.prev_hash = prev.hash ∧
      (∀ tx ∈ self.transactions, tx.is_valid = true) ∧
      self.hash = Block.compute_hash self.index self.timestamp self.transactions
        self.prev_hash self.nonce ∧
      strStartsWith self.hash (zeroRun 2) = true := by
  rw [Block.is_valid_eq]
  simp [List.all_eq_true, and_assoc]

theorem lastBlock_eq_getLast? {l : List Block} (h : l ≠ []) :
    l.getLast? = some (lastBlock l) := by
  unfold lastBlock
  rw [List.getLastD_eq_getLast?]
  cases hl : l.getLast? with
  | none => exact absurd (List.getLast?_eq_none_iff.mp hl) h
  | some b => rfl

theorem chain'_append_singleton {l : List Block} {b : Block} (hne : l ≠ [])
    (hc : List.Chain' linkOk l) (hb : b.is_valid (lastBlock l) = true) :
    List.Chain' linkOk (l ++ [b]) := by
  rw [List.chain'_append]
  refine ⟨hc, List.chain'_singleton b, ?_⟩
  intro x hx y hy
  rw [lastBlock_eq_getLast? hne] at hx
  simp only [Option.mem_def, Option.some.injEq, List.head?_cons] at hx hy
  subst hx; subst hy
  exact hb

/-- The chain-shape invariant of claim C1. -/
def ChainInv (bc : Blockchain) : Prop :=
  bc.chain ≠ [] ∧
  (∃ ts g, Block.genesis ts = some g ∧ bc.chain.head? = some g) ∧
  List.Chain' linkOk bc.chain

theorem ChainInv.append {bc : Blockchain} (h : ChainInv bc) {b : Block}
    (hb : b.is_valid (lastBlock bc.chain) = true) {bc' : Blockchain}
    (hc : bc'.chain = bc.chain ++ [b]) : ChainInv bc' := by
  obtain ⟨h1, ⟨ts, g, hg, hh⟩, h3⟩ := h
  refine ⟨by simp [hc], ⟨ts, g, hg, ?_⟩, hc ▸ chain'_append_singleton h1 h3 hb⟩
  rw [hc, List.head?_append_of_ne_nil _ h1]
  exact hh

theorem mine_block_elim {bc : Blockchain} {ts : Nat} {r : Blockchain × Bool}
    (h : bc.mine_block ts = some r) :
    r.1.difficulty = bc.difficulty ∧
    r.1.mempool = (bc.mempool.get_transactions 10).2 ∧
    ((r.2 = false ∧ r.1.chain = bc.chain) ∨
     (r.2 = true ∧ ∃ b, b.is_valid (lastBlock bc.chain) = true ∧
        r.1.chain = bc.chain ++ [b])) := by
  simp only [Blockchain.mine_block] at h
  split at h
  · injection h with h; subst h
    exact ⟨rfl, rfl, Or.inl ⟨rfl, rfl⟩⟩
  · split at h
    · exact absurd h (by simp)
    · rename_i nb hnb
      split at h
      · rename_i hv
        injection h with h; subst h
        exact ⟨rfl, rfl, Or.inr ⟨rfl, nb, hv, rfl⟩⟩
      · injection h with h; subst h
        exact ⟨rfl, rfl, Or.inl ⟨rfl, rfl⟩⟩

theorem popLastTx_elim : ∀ (l : List Transaction) (h : l ≠ []),
    popLastTx l = some (l.getLast h, l.dropLast)
  | [], h => absurd rfl h
  | [tx], _ => rfl
  | tx :: ty :: rest, _ => by
    have ih := popLastTx_elim (ty :: rest) (by simp)
    simp only [popLastTx, ih]
    simp [List.getLast]

theorem get_transactions_eq (l : List Transaction) (n : Nat) :
    MemPool.get_transactions ⟨l⟩ n = (l.reverse.take n, ⟨l.take (l.length - n)⟩) := by
  induction n generalizing l with
  | zero => simp [MemPool.get_transactions]
  | succ m ih =>
    by_cases hl : l = []
    · subst hl
      simp [MemPool.get_transactions, popLastTx]
    · rw [MemPool.get_transactions]
      rw [popLastTx_elim l hl]
      simp only [ih]
      rw [Prod.mk.injEq]
      refine ⟨?_, ?_⟩
      · rw [show l.reverse = l.getLast hl :: l.dropLast.reverse by
          conv_lhs => rw [← List.dropLast_append_getLast hl]
          simp]
        rfl
      · congr 1
        rw [List.dropLast_eq_take, List.take_take]
        congr 1
        simp only [List.length_take]
        omega

theorem get_transactions_nil {p : MemPool} (hp : p.transactions = []) (n : Nat) :
    p.get_transactions n = ([], p) := by
  cases n with
  | zero => rfl
  | succ m =>
    rw [MemPool.get_transactions, hp]
    rfl

theorem mine_block_empty {bc : Blockchain} (hp : bc.mempool.transactions = []) (ts : Nat) :
    bc.mine_block ts = some (bc, false) := by
  simp only [Blockchain.mine_block, get_transactions_nil hp]
  rfl

theorem syncStep_cases (acc : Blockchain) (b : Block) :
    (b.is_valid (lastBlock acc.chain) = true ∧
      syncStep acc b = { acc with chain := acc.chain ++ [b] }) ∨
    (syncStep acc b = acc) := by
  unfold syncStep
  split
  · exact Or.inl ⟨by assumption, rfl⟩
  · exact Or.inr rfl

theorem syncFold_inv (blocks : List Block) :
    ∀ (bc : Blockchain), ChainInv bc → ChainInv (blocks.foldl syncStep bc) := by
  induction blocks with
  | nil => intro bc h; exact h
  | cons b rest ih =>
    intro bc h
    rw [List.foldl_cons]
    apply ih
    rcases syncStep_cases bc b with ⟨hv, he⟩ | he
    · rw [he]; exact h.append hv rfl
    · rw [he]; exact h

theorem syncFold_prefix (blocks : List Block) :
    ∀ (bc : Blockchain), bc.chain <+: (blocks.foldl syncStep bc).chain := by
  induction blocks with
  | nil => intro bc; exact List.prefix_refl _
  | cons b rest ih =>
    intro bc
    rw [List.foldl_cons]
    refine List.IsPrefix.trans ?_ (ih (syncStep bc b))
    rcases syncStep_cases bc b with ⟨_, he⟩ | he
    · rw [he]; exact List.prefix_append _ _
    · rw [he]

theorem syncFold_eq_mergeSpec (blocks : List Block) :
    ∀ (bc : Blockchain),
      blocks.foldl syncStep bc = { bc with chain := mergeSpec bc.chain blocks } := by
  induction blocks with
  | nil => intro bc; rw [List.foldl_nil, mergeSpec]
  | cons b rest ih =>
    intro bc
    rw [List.foldl_cons, ih (syncStep bc b)]
    unfold syncStep
    rw [mergeSpec]
    split
    · rfl
    · rfl

theorem handle_sync_response_inv {bc : Blockchain} (h : ChainInv bc)
    (incoming : List Block) : ChainInv (Node.handle_sync_response bc incoming) := by
  cases incoming with
  | nil => exact h
  | cons g rest =>
    rw [Node.handle_sync_response]
    split
    · exact h
    · exact syncFold_inv rest bc h

theorem handle_sync_response_prefix (bc : Blockchain) (incoming : List Block) :
    bc.chain <+: (Node.handle_sync_response bc incoming).chain := by
  cases incoming with
  | nil => exact List.prefix_refl _
  | cons g rest =>
    rw [Node.handle_sync_response]
    split
    · exact List.prefix_refl _
    · exact syncFold_prefix rest bc

theorem handle_new_block_cases (bc : Blockchain) (b : Block) :
    (b.is_valid (lastBlock bc.chain) = true ∧
      Node.handle_new_block bc b = { bc with chain := bc.chain ++ [b] }) ∨
    (Node.handle_new_block bc b = bc) := by
  unfold Node.handle_new_block
  split
  · split
    · exact Or.inl ⟨by assumption, rfl⟩
    · exact Or.inr rfl
  · exact Or.inr rfl

theorem reachable_chainInv {bc : Blockchain} (h : Reachable bc) : ChainInv bc := by
  induction h with
  | init ts bc hnew =>
    obtain ⟨g, hg, rfl⟩ := Blockchain.new_unfold hnew
    exact ⟨by simp, ⟨ts, g, hg, rfl⟩, List.chain'_singleton g⟩
  | addTx bc tx _ ih =>
    exact ih
  | mined bc ts r _ hm ih =>
    obtain ⟨_, _, hc⟩ := mine_block_elim hm
    rcases hc with ⟨_, he⟩ | ⟨_, b, hv, he⟩
    · obtain ⟨h1, ⟨t, g, hg, hh⟩, h3⟩ := ih
      refine ⟨?_, ⟨t, g, hg, ?_⟩, ?_⟩
      · rw [he]; exact h1
      · rw [he]; exact hh
      · rw [he]; exact h3
    · exact ih.append hv he
  | synced bc incoming _ ih =>
    exact handle_sync_response_inv ih incoming
  | newBlock bc b _ ih =>
    rcases handle_new_block_cases bc b with ⟨hv, he⟩ | he
    · rw [he]; exact ih.append hv rfl
    · rw [he]; exact ih

theorem F64.le_zero_eq_not_lt {x : F64} (h : x ≠ F64.nan) :
    x.le f64zero = !(F64.lt f64zero x) := by
  cases x with
  | nan => exact absurd rfl h
  | inf => rfl
  | neginf => rfl
  | negzero => rfl
  | fin q =>
    show decide (q ≤ 0) = !decide (0 < q)
    by_cases hq : q ≤ 0
    · simp [hq, not_lt.mpr hq]
    · simp [hq, not_le.mp hq]

/-- The per-transaction contribution `get_balance` accumulates for `address`. -/
def txContrib (address : String) (tx : Transaction) : ℚ :=
  (if tx.«to» == address then tx.amount.toRat else 0) -
  (if tx.«from» == address then tx.amount.toRat else 0)

theorem balance_inner_eq (address : String) (l : List Transaction) :
    ∀ acc : ℚ,
    l.foldl (fun acc2 tx =>
      let acc3 := if tx.«from» == address then acc2 - tx.amount.toRat else acc2
      if tx.«to» == address then acc3 + tx.amount.toRat else acc3) acc
      = acc + (l.map (txContrib address)).sum := by
  induction l with
  | nil => intro acc; simp
  | cons tx rest ih =>
    intro acc
    rw [List.foldl_cons, ih, List.map_cons, List.sum_cons]
    have : (let acc3 := if tx.«from» == address then acc - tx.amount.toRat else acc
        if tx.«to» == address then acc3 + tx.amount.toRat else acc3)
        = acc + txContrib address tx := by
      unfold txContrib
      cases hf : tx.«from» == address <;> cases ht : tx.«to» == address <;> simp <;> ring
    rw [this]
    ring

theorem get_balance_eq (bc : Blockchain) (address : String) :
    bc.get_balance address
      = (bc.chain.map fun b => (b.transactions.map (txContrib address)).sum).sum := by
  unfold Blockchain.get_balance
  suffices h : ∀ (l : List Block) (acc : ℚ),
      l.foldl (fun acc b =>
        b.transactions.foldl (fun acc2 tx =>
          let acc3 := if tx.«from» == address then acc2 - tx.amount.toRat else acc2
          if tx.«to» == address then acc3 + tx.amount.toRat else acc3) acc) acc
        = acc + (l.map fun b => (b.transactions.map (txContrib address)).sum).sum by
    rw [h bc.chain 0, zero_add]
  intro l
  induction l with
  | nil => intro acc; simp
  | cons b rest ih =>
    intro acc
    rw [List.foldl_cons, ih, balance_inner_eq]
    simp [add_assoc]

theorem sum_txContrib_zero (S : Finset String) (tx : Transaction)
    (hf : tx.«from» ∈ S) (ht : tx.«to» ∈ S) :
    (∑ a ∈ S, txContrib a tx) = 0 := by
  unfold txContrib
  rw [Finset.sum_sub_distrib]
  have h1 : (∑ a ∈ S, if tx.«to» == a then tx.amount.toRat else 0) = tx.amount.toRat := by
    rw [show (fun a => if tx.«to» == a then tx.amount.toRat else 0)
        = fun a => if tx.«to» = a then tx.amount.toRat else 0 by
      funext a; simp [beq_iff_eq]]
    rw [Finset.sum_ite_eq S tx.«to» fun _ => tx.amount.toRat]
    simp [ht]
  have h2 : (∑ a ∈ S, if tx.«from» == a then tx.amount.toRat else 0) = tx.amount.toRat := by
    rw [show (fun a => if tx.«from» == a then tx.amount.toRat else 0)
        = fun a => if tx.«from» = a then tx.amount.toRat else 0 by
      funext a; simp [beq_iff_eq]]
    rw [Finset.sum_ite_eq S tx.«from» fun _ => tx.amount.toRat]
    simp [hf]
  rw [h1, h2, sub_self]

/-! ## Claim theorems -/

/-- C1: every Blockchain state reachable from `Blockchain::new` by
`add_transaction`, `mine_block` and sync/`NEW_BLOCK` merges has a non-empty
chain whose head is the genesis block mined at construction and whose every
adjacent pair satisfies `chain[i].is_valid(chain[i-1])`; moreover every
operation only ever appends to the chain (so no block — in particular
`chain[0]` — is ever removed, reordered or replaced). -/
theorem C1_chain_invariant :
    (∀ bc : Blockchain, Reachable bc →
      bc.chain ≠ [] ∧
      (∃ ts g, Block.genesis ts = some g ∧ bc.chain.head? = some g) ∧
      ∀ (i : Nat) (hi : i < bc.chain.length - 1),
        (bc.chain.get ⟨i + 1, by omega⟩).is_valid (bc.chain.get ⟨i, by omega⟩) = true) ∧
    (∀ (bc : Blockchain) (tx : Transaction),
      bc.chain <+: ((bc.add_transaction tx).1).chain) ∧
    (∀ (bc : Blockchain) (ts : Nat) (r : Blockchain × Bool),
      bc.mine_block ts = some r → bc.chain <+: r.1.chain) ∧
    (∀ (bc : Blockchain) (incoming : List Block),
      bc.chain <+: (Node.handle_sync_response bc incoming).chain) ∧
    (∀ (bc : Blockchain) (b : Block),
      bc.chain <+: (Node.handle_new_block bc b).chain) := by
  refine ⟨?_, ?_, ?_, handle_sync_response_prefix, ?_⟩
  · intro bc hr
    obtain ⟨h1, h2, h3⟩ := reachable_chainInv hr
    exact ⟨h1, h2, fun i hi => List.chain'_iff_get.mp h3 i hi⟩
  · intro bc tx
    exact List.prefix_refl _
  · intro bc ts r hm
    obtain ⟨_, _, hc⟩ := mine_block_elim hm
    rcases hc with ⟨_, he⟩ | ⟨_, b, _, he⟩
    · rw [he]
    · rw [he]; exact List.prefix_append _ _
  · intro bc b
    rcases handle_new_block_cases bc b with ⟨_, he⟩ | he
    · rw [he]; exact List.prefix_append _ _
    · rw [he]

/-- C2 (amended): `Block::is_valid` returns true exactly when all five checks
pass, where the index check uses the `u32` wrapping successor
`(prev.index + 1) % 2^32` that the Rust expression `prev.index + 1` computes
in release builds. -/
theorem C2_is_valid_characterization (self prev : Block) :
    self.is_valid prev = true ↔
      self.index = (prev.index + 1) % 2 ^ 32 ∧
      self.prev_hash = prev.hash ∧
      (∀ tx ∈ self.transactions, tx.is_valid = true) ∧
      self.hash = Block.compute_hash self.index self.timestamp self.transactions
        self.prev_hash self.nonce ∧
      strStartsWith self.hash (zeroRun 2) = true :=
  Block.is_valid_iff self prev

/-- C3: a block produced by `Block::new` stores exactly the given fields plus
the captured timestamp, its hash is `compute_hash` of its stored fields and
begins with two `'0'` characters, its nonce is the least nonce with that
property, and `compute_hash` coincides with the spec's description
(`computeHashSpec`). -/
theorem C3_block_new_spec :
    (∀ (index : Nat) (transactions : List Transaction) (prev_hash : String)
       (ts : Nat) (b : Block),
      Block.new index transactions prev_hash ts = some b →
      b.index = index ∧ b.timestamp = ts ∧ b.transactions = transactions ∧
      b.prev_hash = prev_hash ∧
      b.hash = Block.compute_hash index ts transactions prev_hash b.nonce ∧
      strStartsWith b.hash (zeroRun 2) = true ∧
      (∀ m, m < b.nonce →
        strStartsWith (Block.compute_hash index ts transactions prev_hash m)
          (zeroRun 2) = false)) ∧
    (∀ (index ts : Nat) (transactions : List Transaction) (prev_hash : String)
       (nonce : Nat),
      Block.compute_hash index ts transactions prev_hash nonce
        = computeHashSpec index ts transactions prev_hash nonce) := by
  refine ⟨fun i txs ph ts b h => Block.new_props h, ?_⟩
  intro i ts txs ph n
  rfl

/-- C4 counterexample: for a transaction whose `f64` amount is NaN, the code's
check `amount <= 0.0` is false (IEEE-754), so `is_valid` returns `true`, while
the claimed condition `amount > 0` is also false — refuting the biconditional
at this input. -/
theorem C4_counterexample :
    c4nan.is_valid = true ∧ F64.lt f64zero c4nan.amount = false := by
  exact ⟨by decide, by decide⟩

/-- C4 (amended): for every transaction whose amount is not NaN,
`Transaction::is_valid` returns true iff `amount > 0`, `from`/`to` non-empty
and distinct, and `signature`/`public_key` non-empty. -/
theorem C4_is_valid_iff (t : Transaction) (hnan : t.amount ≠ F64.nan) :
    t.is_valid = true ↔
      (F64.lt f64zero t.amount = true ∧ t.«from» ≠ "" ∧ t.«to» ≠ "" ∧
       t.«from» ≠ t.«to» ∧ t.signature ≠ "" ∧ t.public_key ≠ "") := by
  unfold Transaction.is_valid
  rw [F64.le_zero_eq_not_lt hnan]
  cases hlt : F64.lt f64zero t.amount
  · simp [hlt]
  · simp only [hlt, Bool.not_true, Bool.false_eq_true, if_false]
    split_ifs with h1 h2 h3 <;> simp_all [beq_iff_eq, not_or] <;> tauto

/-- C4 witness for the amended biconditional, at a concrete valid transaction. -/
theorem C4_is_valid_iff_witness :
    c4ok.amount ≠ F64.nan ∧
    (c4ok.is_valid = true ↔
      (F64.lt f64zero c4ok.amount = true ∧ c4ok.«from» ≠ "" ∧ c4ok.«to» ≠ "" ∧
       c4ok.«from» ≠ c4ok.«to» ∧ c4ok.signature ≠ "" ∧ c4ok.public_key ≠ "")) :=
  ⟨by decide, C4_is_valid_iff c4ok (by decide)⟩

/-- C5 (amended): whenever `mine_block` reports failure, the chain and the
difficulty are unchanged and the mempool is left as `get_transactions(10)`
left it — unchanged when the failure is the empty-mempool case (where the
whole state is exactly as before), but drained of the popped transactions in
the candidate-validation-failure case. -/
theorem C5_mine_failure_effects (bc : Blockchain) (ts : Nat) (r : Blockchain × Bool)
    (h : bc.mine_block ts = some r) (hf : r.2 = false) :
    r.1.chain = bc.chain ∧ r.1.difficulty = bc.difficulty ∧
    r.1.mempool = (bc.mempool.get_transactions 10).2 ∧
    (bc.mempool.transactions = [] → r.1 = bc) := by
  obtain ⟨hd, hm, hc⟩ := mine_block_elim h
  rcases hc with ⟨_, he⟩ | ⟨ht, _⟩
  · refine ⟨he, hd, hm, fun hp => ?_⟩
    have hmp : r.1.mempool = bc.mempool := by rw [hm, get_transactions_nil hp]
    calc r.1 = ⟨r.1.chain, r.1.difficulty, r.1.mempool⟩ := rfl
    _ = bc := by rw [he, hd, hmp]
  · rw [ht] at hf
    exact absurd hf (by simp)

/-- C5 witness: `mine_block` on an empty mempool fails with the state exactly
as before. -/
theorem C5_mine_failure_effects_witness :
    c5w.mine_block 3 = some (c5w, false) ∧
    ((c5w, false) : Blockchain × Bool).1.chain = c5w.chain ∧
    ((c5w, false) : Blockchain × Bool).1.difficulty = c5w.difficulty ∧
    ((c5w, false) : Blockchain × Bool).1.mempool = (c5w.mempool.get_transactions 10).2 ∧
    (c5w.mempool.transactions = [] → ((c5w, false) : Blockchain × Bool).1 = c5w) := by
  have h : c5w.mine_block 3 = some (c5w, false) := mine_block_empty rfl 3
  obtain ⟨h1, h2, h3, h4⟩ := C5_mine_failure_effects c5w 3 (c5w, false) h rfl
  exact ⟨h, h1, h2, h3, h4⟩

/-- C6: the sync-merge leaves the state unchanged on an empty incoming chain
or a genesis-hash mismatch, and otherwise changes exactly the chain, to the
spec-side merge (`mergeSpec`) that appends each subsequent incoming block iff
it validates against the local tail current at the moment it is processed. -/
theorem C6_sync_merge_characterization (bc : Blockchain) (incoming : List Block) :
    Node.handle_sync_response bc incoming =
      match incoming with
      | [] => bc
      | g :: rest =>
        if (headBlock bc.chain).hash = g.hash then
          { bc with chain := mergeSpec bc.chain rest }
        else bc := by
  cases incoming with
  | nil => rfl
  | cons g rest =>
    show Node.handle_sync_response bc (g :: rest) =
      if (headBlock bc.chain).hash = g.hash then
        { bc with chain := mergeSpec bc.chain rest }
      else bc
    rw [Node.handle_sync_response]
    rcases eq_or_ne (headBlock bc.chain).hash g.hash with hh | hh
    · rw [if_neg (by simp [hh]), if_pos hh, syncFold_eq_mergeSpec]
    · rw [if_pos (by simp [bne_iff_ne, hh]), if_neg hh]

/-- C8 (amended): `mine_block` never changes the difficulty field; the code
contains no difficulty-adjustment procedure at all (the `Blockchain` struct
has no `target_block_time` or `adjustment_interval` fields). -/
theorem C8_difficulty_never_adjusted (bc : Blockchain) (ts : Nat)
    (r : Blockchain × Bool) (h : bc.mine_block ts = some r) :
    r.1.difficulty = bc.difficulty :=
  (mine_block_elim h).1

/-- C8 witness at a concrete state. -/
theorem C8_difficulty_never_adjusted_witness :
    c8w.mine_block 4 = some (c8w, false) ∧
    ((c8w, false) : Blockchain × Bool).1.difficulty = c8w.difficulty :=
  ⟨mine_block_empty rfl 4,
   C8_difficulty_never_adjusted c8w 4 (c8w, false) (mine_block_empty rfl 4)⟩

theorem sum_txList_zero (S : Finset String) (lt : List Transaction)
    (h : ∀ tx ∈ lt, tx.«from» ∈ S ∧ tx.«to» ∈ S) :
    ∑ a ∈ S, (lt.map (txContrib a)).sum = 0 := by
  induction lt with
  | nil => simp
  | cons tx r2 ih =>
    simp only [List.map_cons, List.sum_cons]
    rw [Finset.sum_add_distrib,
      sum_txContrib_zero S tx (h tx (by simp)).1 (h tx (by simp)).2,
      ih fun t ht => h t (List.mem_cons_of_mem _ ht), add_zero]

theorem sum_chain_zero (S : Finset String) (l : List Block)
    (h : ∀ b ∈ l, ∀ tx ∈ b.transactions, tx.«from» ∈ S ∧ tx.«to» ∈ S) :
    ∑ a ∈ S, (l.map fun b => ((b.transactions.map (txContrib a)).sum)).sum = 0 := by
  induction l with
  | nil => simp
  | cons b rest ih =>
    simp only [List.map_cons, List.sum_cons]
    rw [Finset.sum_add_distrib, sum_txList_zero S b.transactions (h b (by simp)),
      ih fun bb hb => h bb (List.mem_cons_of_mem _ hb), add_zero]

/-- C9: `get_balance` (modelled from the spec, as its definition is absent
from `src/`) is conservative — over any address set closed under the chain's
transaction endpoints, the balances sum to zero. -/
theorem C9_balance_conservation (bc : Blockchain) (S : Finset String)
    (hS : ∀ b ∈ bc.chain, ∀ tx ∈ b.transactions, tx.«from» ∈ S ∧ tx.«to» ∈ S) :
    ∑ a ∈ S, bc.get_balance a = 0 := by
  rw [show ∑ a ∈ S, bc.get_balance a
      = ∑ a ∈ S, (bc.chain.map fun b => ((b.transactions.map (txContrib a)).sum)).sum from
    Finset.sum_congr rfl fun a _ => get_balance_eq bc a]
  exact sum_chain_zero S bc.chain hS

/-- C9 witness at a concrete two-transaction chain over the closed address
set containing A and B. -/
theorem C9_balance_conservation_witness :
    (∀ b ∈ c9bc.chain, ∀ tx ∈ b.transactions, tx.«from» ∈ c9S ∧ tx.«to» ∈ c9S) ∧
    ∑ a ∈ c9S, c9bc.get_balance a = 0 :=
  ⟨by decide, C9_balance_conservation c9bc c9S (by decide)⟩

/-- C10: the genesis placeholder transaction fails `Transaction::is_valid`,
yet a freshly constructed blockchain passes `is_chain_valid` (which never
examines the genesis block's own contents), while any non-genesis block
containing such a placeholder is rejected by `Block::is_valid`. -/
theorem C10_genesis_validation_gap :
    (∀ ts, (genesisTx ts).is_valid = false) ∧
    (∀ (ts : Nat) (bc : Blockchain),
      Blockchain.new ts = some bc → bc.is_chain_valid = true) ∧
    (∀ (b prev : Block),
      (∃ tx ∈ b.transactions, tx.«from» = "GENESIS" ∧ tx.«to» = "GENESIS" ∧
        tx.amount = F64.fin 0) →
      b.is_valid prev = false) := by
  refine ⟨fun ts => rfl, ?_, ?_⟩
  · intro ts bc hnew
    obtain ⟨g, hg, rfl⟩ := Blockchain.new_unfold hnew
    rfl
  · rintro b prev ⟨tx, htx, hf, ht, ha⟩
    rw [Block.is_valid_eq]
    have hinv : tx.is_valid = false := by
      unfold Transaction.is_valid
      rw [ha]
      rfl
    have hall : b.transactions.all (fun tx => tx.is_valid) = false := by
      refine Bool.eq_false_iff.mpr fun hc => ?_
      rw [List.all_eq_true] at hc
      exact absurd (hc tx htx) (by simp [hinv])
    simp [hall]

/-- C7: `get_transactions(count)` removes and returns up to `count` entries in
LIFO order (most recently added first), returning everything when the pool is
smaller; consequently the fresh-chain scenario — three valid transactions
submitted and one `mine_block` — yields chain length 2, an empty mempool, the
three transactions in reverse-insertion order in `chain[1]`, and
`chain[1].is_valid(chain[0])`. -/
theorem C7_mempool_lifo_and_scenario :
    (∀ (p : MemPool) (count : Nat),
      p.get_transactions count
        = (p.transactions.reverse.take count,
           ⟨p.transactions.take (p.transactions.length - count)⟩)) ∧
    (∀ (ts0 ts1 : Nat) (bc0 : Blockchain) (r : Blockchain × Bool),
      Blockchain.new ts0 = some bc0 →
      ((((bc0.add_transaction scnTx1).1.add_transaction scnTx2).1.add_transaction
          scnTx3).1).mine_block ts1 = some r →
      r.2 = true ∧ r.1.chain.length = 2 ∧ r.1.mempool.transactions = [] ∧
      (r.1.chain.getD 1 junkBlock).transactions = [scnTx3, scnTx2, scnTx1] ∧
      (r.1.chain.getD 1 junkBlock).is_valid (r.1.chain.getD 0 junkBlock) = true) := by
  constructor
  · intro p count
    cases p with
    | mk l => exact get_transactions_eq l count
  · intro ts0 ts1 bc0 r hnew hmine
    obtain ⟨g, hg, rfl⟩ := Blockchain.new_unfold hnew
    unfold Block.genesis at hg
    obtain ⟨gi, _, _, _, _, _, _⟩ := Block.new_props hg
    have hadds : ((((⟨[g], 2, ⟨[]⟩⟩ : Blockchain).add_transaction scnTx1).1.add_transaction
        scnTx2).1.add_transaction scnTx3).1
        = (⟨[g], 2, ⟨[scnTx1, scnTx2, scnTx3]⟩⟩ : Blockchain) := by
      simp [Blockchain.add_transaction, MemPool.add_transaction,
        show scnTx1.is_valid = true from by decide,
        show scnTx2.is_valid = true from by decide,
        show scnTx3.is_valid = true from by decide]
    rw [hadds] at hmine
    simp only [Blockchain.mine_block] at hmine
    rw [show (MemPool.get_transactions ⟨[scnTx1, scnTx2, scnTx3]⟩ 10)
        = ([scnTx3, scnTx2, scnTx1], (⟨[]⟩ : MemPool)) from rfl] at hmine
    rw [show (⟨[g], 2, ⟨[scnTx1, scnTx2, scnTx3]⟩⟩ : Blockchain).chain.length % 2 ^ 32 = 1 from
      by simp] at hmine
    rw [show lastBlock (⟨[g], 2, ⟨[scnTx1, scnTx2, scnTx3]⟩⟩ : Blockchain).chain = g from rfl]
      at hmine
    rw [show ([scnTx3, scnTx2, scnTx1] : List Transaction).isEmpty = false from rfl] at hmine
    simp only [Bool.false_eq_true, if_false] at hmine
    cases hb : Block.new 1 [scnTx3, scnTx2, scnTx1] g.hash ts1 with
    | none =>
      simp only [hb] at hmine
      exact absurd hmine (by simp)
    | some nb =>
      simp only [hb] at hmine
      obtain ⟨bi, bt, btx, bp, bh, bs, _⟩ := Block.new_props hb
      have hv : nb.is_valid g = true := by
        rw [Block.is_valid_iff]
        refine ⟨?_, ?_, ?_, ?_, bs⟩
        · rw [bi, gi]; norm_num
        · rw [bp]
        · rw [btx]
          intro tx htx
          simp only [List.mem_cons, List.not_mem_nil, or_false] at htx
          rcases htx with rfl | rfl | rfl <;> decide
        · rw [bh, bi, bt, btx, bp]
      rw [if_pos hv] at hmine
      injection hmine with hmine
      subst hmine
      refine ⟨rfl, by simp, rfl, ?_, ?_⟩
      · simpa using btx
      · simpa using hv

set_option maxRecDepth 1000000 in
set_option maxHeartbeats 4000000 in
/-- C1 witness: the freshly constructed blockchain (timestamp 88) is
reachable and satisfies the invariant. -/
theorem C1_chain_invariant_witness :
    Reachable bcInit88 ∧ bcInit88.chain ≠ [] ∧
    (∃ ts g, Block.genesis ts = some g ∧ bcInit88.chain.head? = some g) := by
  have hnew : Blockchain.new 88 = some bcInit88 := by decide
  have hr : Reachable bcInit88 := Reachable.init 88 bcInit88 hnew
  exact ⟨hr, (C1_chain_invariant.1 bcInit88 hr).1, (C1_chain_invariant.1 bcInit88 hr).2.1⟩

set_option maxRecDepth 1000000 in
set_option maxHeartbeats 4000000 in
/-- C2 counterexample: a block pair accepted by `Block::is_valid` although
`self.index ≠ prev.index + 1` over the integers — `prev.index` is
`u32::MAX = 2^32 - 1`, so the Rust expression `prev.index + 1` wraps to 0
(release semantics; a debug build would panic rather than return false). -/
theorem C2_counterexample :
    c2self.is_valid c2prev = true ∧ c2self.index ≠ c2prev.index + 1 :=
  ⟨by decide, by decide⟩

set_option maxRecDepth 1000000 in
set_option maxHeartbeats 4000000 in
/-- C3 witness: `Block.new 0 [] "" 661` mines at nonce 0 and satisfies every
conjunct of C3. -/
theorem C3_block_new_spec_witness :
    Block.new 0 [] "" 661 = some c3block ∧
    c3block.index = 0 ∧ c3block.timestamp = 661 ∧ c3block.transactions = [] ∧
    c3block.prev_hash = "" ∧
    c3block.hash = Block.compute_hash 0 661 [] "" c3block.nonce ∧
    strStartsWith c3block.hash (zeroRun 2) = true ∧
    (∀ m, m < c3block.nonce →
      strStartsWith (Block.compute_hash 0 661 [] "" m) (zeroRun 2) = false) := by
  have h : Block.new 0 [] "" 661 = some c3block := by decide
  obtain ⟨e1, e2, e3, e4, e5, e6, e7⟩ := C3_block_new_spec.1 0 [] "" 661 c3block h
  exact ⟨h, e1, e2, e3, e4, e5, e6, e7⟩

set_option maxRecDepth 1000000 in
set_option maxHeartbeats 4000000 in
/-- C5 counterexample: when the candidate block fails validation (here
because the only pooled transaction is invalid), `mine_block` reports failure
but the popped transactions are gone from the mempool — the state is not
"exactly as before". -/
theorem C5_counterexample :
    c5bc.mine_block 58 = some (⟨[c5prev], 2, ⟨[]⟩⟩, false) ∧
    (⟨[c5prev], 2, ⟨[]⟩⟩ : Blockchain).mempool ≠ c5bc.mempool :=
  ⟨by decide, by decide⟩

set_option maxRecDepth 1000000 in
set_option maxHeartbeats 8000000 in
/-- C7 witness: the concrete scenario at timestamps 88 (construction) and 68
(mining). -/
theorem C7_mempool_lifo_and_scenario_witness :
    Blockchain.new 88 = some bcInit88 ∧
    ((((bcInit88.add_transaction scnTx1).1.add_transaction scnTx2).1.add_transaction
        scnTx3).1).mine_block 68 = some (scnResult, true) ∧
    ((scnResult, true) : Blockchain × Bool).2 = true ∧
    scnResult.chain.length = 2 ∧ scnResult.mempool.transactions = [] ∧
    (scnResult.chain.getD 1 junkBlock).transactions = [scnTx3, scnTx2, scnTx1] ∧
    (scnResult.chain.getD 1 junkBlock).is_valid (scnResult.chain.getD 0 junkBlock)
      = true := by
  have h1 : Blockchain.new 88 = some bcInit88 := by decide
  have h2 : ((((bcInit88.add_transaction scnTx1).1.add_transaction scnTx2).1.add_transaction
      scnTx3).1).mine_block 68 = some (scnResult, true) := by decide
  obtain ⟨e1, e2, e3, e4, e5⟩ :=
    C7_mempool_lifo_and_scenario.2 88 68 bcInit88 (scnResult, true) h1 h2
  exact ⟨h1, h2, e1, e2, e3, e4, e5⟩

set_option maxRecDepth 1000000 in
set_option maxHeartbeats 8000000 in
/-- C8 counterexample: a successful `mine_block` after which the chain length
(2) is a positive multiple of any adjustment interval (e.g. 1) and the block
interval `actual_time = 290` satisfies `0 < actual_time < target_time` for
e.g. `target_block_time = 600`, so the claimed policy requires the difficulty
to be incremented to 3 — yet it stays 2: the code has no difficulty
adjustment. -/
theorem C8_counterexample :
    c8bc.mine_block 291 = some (c8res, true) ∧
    c8res.chain.length = 2 ∧
    (lastBlock c8res.chain).timestamp - (headBlock c8res.chain).timestamp = 290 ∧
    0 < 290 ∧ 290 < 600 ∧
    c8res.difficulty = c8bc.difficulty :=
  ⟨by decide, by decide, by decide, by decide, by decide, by decide⟩

set_option maxRecDepth 1000000 in
set_option maxHeartbeats 4000000 in
/-- C10 witness: the concrete genesis placeholder fails validation, the fresh
blockchain at timestamp 88 passes `is_chain_valid`, and a non-genesis block
holding the placeholder is rejected. -/
theorem C10_genesis_validation_gap_witness :
    (genesisTx 0).is_valid = false ∧
    Blockchain.new 88 = some bcInit88 ∧ bcInit88.is_chain_valid = true ∧
    c10blk.is_valid junkBlock = false := by
  have hnew : Blockchain.new 88 = some bcInit88 := by decide
  exact ⟨C10_genesis_validation_gap.1 0, hnew,
    C10_genesis_validation_gap.2.1 88 bcInit88 hnew,
    C10_genesis_validation_gap.2.2 c10blk junkBlock
      ⟨genesisTx 0, by decide, rfl, rfl, rfl⟩⟩
